import Mathlib

/-!
# Verification of the Aldersbach transaction dashboard core

A shallow embedding, in Lean 4, of the data-processing core of the
Aldersbach monastery financial dashboard (`script.js` and the export
module), together with proofs and refutations of the specified
properties of that core.

Embedding conventions:

* JavaScript numbers are modelled as exact rationals (`ℚ`); decimal
  literals in the source are taken at their decimal value.
* JavaScript strings are modelled as Lean `String`s; character-level
  work (`toLowerCase`, `includes`, regex scans, `localeCompare`) is done
  on their `List Char` code-point data.  `localeCompare` is modelled as
  code-point comparison, which agrees with it on the ASCII digit/dash
  strings compared here.
* Host primitives that are not part of the repository (the engine's
  generic `new Date(string)` parser and `parseFloat`) are passed in as
  an explicit environment `JSEnv`; `Date#toISOString`/`getFullYear` are
  modelled as a calendar date whose ISO year and `getFullYear` agree.
* `Array.prototype.sort(comparator)` is modelled as the stable sort by
  the comparator's induced preorder (ECMAScript requires sort
  stability); `List.insertionSort` is the stable sort used.
* Fallible operations return `Option`; `null`/`NaN` become `none`.
-/

/-! ## Character and string helpers (models of the JS string primitives used) -/

/-- JS regex `\s` (the whitespace characters relevant to this corpus). -/
def isSpaceJS (c : Char) : Bool :=
  c = ' ' || c = '\t' || c = '\n' || c = '\r' || c = '\x0b' || c = '\x0c'

def isAsciiUpper (c : Char) : Bool := 'A' ≤ c && c ≤ 'Z'

def isAsciiLower (c : Char) : Bool := 'a' ≤ c && c ≤ 'z'

/-- JS regex `\w`: ASCII letters, digits and underscore (no Unicode). -/
def isWordChar (c : Char) : Bool :=
  isAsciiUpper c || isAsciiLower c || c.isDigit || c = '_'

/-- Model of `String#toLowerCase` on one character, covering ASCII and the
Latin-1 uppercase range (`À`–`Þ` except `×`), which is all this corpus uses. -/
def charToLower (c : Char) : Char :=
  if isAsciiUpper c then Char.ofNat (c.toNat + 32)
  else if 0xC0 ≤ c.toNat ∧ c.toNat ≤ 0xDE ∧ c.toNat ≠ 0xD7 then Char.ofNat (c.toNat + 32)
  else c

def lowerChars (l : List Char) : List Char := l.map charToLower

/-- Does `hay` start with `needle`? -/
def charsPrefix : List Char → List Char → Bool
  | [], _ => true
  | _ :: _, [] => false
  | a :: as, b :: bs => a = b && charsPrefix as bs

/-- Model of `String#includes`: does `hay` contain `needle` as a contiguous
substring? -/
def charsIncludes : List Char → List Char → Bool
  | [], needle => charsPrefix needle []
  | c :: rest, needle => charsPrefix needle (c :: rest) || charsIncludes rest needle

/-- Code-point lexicographic order on character lists; the model of
`String.prototype.localeCompare(…) ≤ 0` for the ASCII keys compared here. -/
def charsLe : List Char → List Char → Bool
  | [], _ => true
  | _ :: _, [] => false
  | a :: as, b :: bs => if a = b then charsLe as bs else decide (a < b)

theorem charsLe_total : ∀ a b : List Char, charsLe a b = true ∨ charsLe b a = true := by
  intro a
  induction a with
  | nil => intro b; left; rfl
  | cons x xs ih =>
    intro b
    cases b with
    | nil => right; rfl
    | cons y ys =>
      by_cases hxy : x = y
      · subst hxy
        rcases ih ys with h | h
        · left; simpa [charsLe] using h
        · right; simpa [charsLe] using h
      · rcases lt_or_gt_of_ne hxy with h | h
        · left; simp [charsLe, hxy, h]
        · right; simp [charsLe, Ne.symm hxy, h]

theorem charsLe_trans : ∀ {a b c : List Char},
    charsLe a b = true → charsLe b c = true → charsLe a c = true := by
  intro a
  induction a with
  | nil => intro b c _ _; rfl
  | cons x xs ih =>
    intro b c hab hbc
    cases b with
    | nil => simp [charsLe] at hab
    | cons y ys =>
      cases c with
      | nil => simp [charsLe] at hbc
      | cons z zs =>
        by_cases hxy : x = y <;> by_cases hyz : y = z
        · subst hxy; subst hyz
          simp only [charsLe, if_pos rfl] at hab hbc ⊢
          exact ih hab hbc
        · subst hxy
          simp only [charsLe, if_pos rfl] at hab
          simp only [charsLe, if_neg hyz, decide_eq_true_eq] at hbc
          simp [charsLe, hyz, hbc]
        · subst hyz
          simp only [charsLe, if_neg hxy, decide_eq_true_eq] at hab
          simp [charsLe, hxy, hab]
        · simp only [charsLe, if_neg hxy, decide_eq_true_eq] at hab
          simp only [charsLe, if_neg hyz, decide_eq_true_eq] at hbc
          have hxz : x < z := lt_trans hab hbc
          simp [charsLe, ne_of_lt hxz, hxz]

/-- The piece of `res.split('#').pop()`: everything after the last `'#'`
(the whole list when there is none). -/
def afterLastHash (l : List Char) : List Char :=
  l.foldl (fun acc c => if c = '#' then [] else acc ++ [c]) []

/-- Model of `String#trim` (JS trims whitespace at both ends). -/
def trimChars (l : List Char) : List Char :=
  ((l.dropWhile isSpaceJS).reverse.dropWhile isSpaceJS).reverse

/-! ## Data model

`Amount` and `Transaction` are the objects built by
`AlderbachDashboard.parseXMLData` (script.js:291–304): a transaction keeps
its push-time index as `id`, the raw record index in `originalId`, the
validated date (or `''`), the entry text, the kept amounts, the running
florin total, the inferred type, the extracted people/places, and the raw
markup. -/

structure Amount where
  amount : ℚ
  currency : String
deriving DecidableEq, Repr

structure Transaction where
  id : Nat
  originalId : String
  date : String
  entry : String
  amounts : List Amount
  totalFlorinValue : ℚ
  type : String
  people : List String
  rawXML : String
deriving DecidableEq, Repr

/-! ## UnitConverter: `convertToFlorin` (script.js:400–419) and the export
module's `convertToFlorins` (ExportManager, lines 156–171) -/

/-- The dashboard's fixed conversion table (script.js:402–410). -/
def florinRates (currency : String) : Option ℚ :=
  if currency = "f" then some 1
  else if currency = "s" then some (1/30)
  else if currency = "d" then some (1/240)
  else if currency = "gr" then some (1/20)
  else if currency = "t" then some (1/8)
  else if currency = "l" then some (1/4)
  else if currency = "p" then some (1/240)
  else none

/-- `convertToFlorin(amount, currency)` (script.js:400–419): table lookup,
`0` for a code not in the table. -/
def convertToFlorin (amount : ℚ) (currency : String) : ℚ :=
  match florinRates currency with
  | some rate => amount * rate
  | none => 0

/-- The export module's conversion table (ExportManager, lines 160–168). -/
def exportConversionRates (currency : String) : Option ℚ :=
  if currency = "f" then some 1
  else if currency = "s" then some 0.05
  else if currency = "d" then some 0.004167
  else if currency = "gr" then some 0.0625
  else if currency = "t" then some 0.5
  else if currency = "l" then some 1
  else if currency = "p" then some 0.004167
  else none

/-- `ExportManager.convertToFlorins(amount, currency)` (lines 157–171):
falsy amount or currency gives `0`; an unknown code falls back to rate `1`
(`conversionRates[currency] || 1`). -/
def convertToFlorins (amount : ℚ) (currency : String) : ℚ :=
  if amount = 0 ∨ currency = "" then 0
  else amount * (exportConversionRates currency).getD 1

theorem florinRates_f : florinRates "f" = some 1 := rfl

theorem florinRates_s : florinRates "s" = some (1/30) := rfl

theorem florinRates_d : florinRates "d" = some (1/240) := rfl

theorem florinRates_gr : florinRates "gr" = some (1/20) := rfl

theorem florinRates_t : florinRates "t" = some (1/8) := rfl

theorem florinRates_l : florinRates "l" = some (1/4) := rfl

theorem florinRates_p : florinRates "p" = some (1/240) := rfl

theorem exportConversionRates_s : exportConversionRates "s" = some 0.05 := rfl

/-- C4: convertToFlorin multiplies by the fixed nominal rate
(f = 1, s = 1/30, d = 1/240, gr = 1/20, t = 1/8, l = 1/4, p = 1/240) for
every known code, returns 0 for every code outside the known set, and in
particular maps 240 d to exactly 1 florin and 30 s to exactly 1 florin. -/
theorem convertToFlorin_rate_table :
    (∀ a : ℚ,
      convertToFlorin a "f" = a * 1 ∧
      convertToFlorin a "s" = a * (1/30) ∧
      convertToFlorin a "d" = a * (1/240) ∧
      convertToFlorin a "gr" = a * (1/20) ∧
      convertToFlorin a "t" = a * (1/8) ∧
      convertToFlorin a "l" = a * (1/4) ∧
      convertToFlorin a "p" = a * (1/240)) ∧
    (∀ code : String, code ∉ (["f", "s", "d", "gr", "t", "l", "p"] : List String) →
      ∀ a : ℚ, convertToFlorin a code = 0) ∧
    convertToFlorin 240 "d" = 1 ∧ convertToFlorin 30 "s" = 1 := by
  refine ⟨fun a => ?_, fun code hcode a => ?_,
    by norm_num [convertToFlorin, florinRates_d],
    by norm_num [convertToFlorin, florinRates_s]⟩
  · exact ⟨by simp [convertToFlorin, florinRates_f],
      by simp [convertToFlorin, florinRates_s],
      by simp [convertToFlorin, florinRates_d],
      by simp [convertToFlorin, florinRates_gr],
      by simp [convertToFlorin, florinRates_t],
      by simp [convertToFlorin, florinRates_l],
      by simp [convertToFlorin, florinRates_p]⟩
  · simp only [List.mem_cons, List.not_mem_nil, or_false, not_or] at hcode
    obtain ⟨h1, h2, h3, h4, h5, h6, h7⟩ := hcode
    simp [convertToFlorin, florinRates, h1, h2, h3, h4, h5, h6, h7]

theorem convertToFlorin_rate_table_witness :
    ("x" ∉ (["f", "s", "d", "gr", "t", "l", "p"] : List String)) ∧
      convertToFlorin 5 "x" = 0 :=
  ⟨by decide, convertToFlorin_rate_table.2.1 "x" (by decide) 5⟩

/-- C3 counterexample: the two conversion functions disagree already at
one shilling — the dashboard gives 1/30 florin, the export module gives
0.05 = 1/20 florin — so they do not implement one and the same table. -/
theorem convert_refinement_counterexample :
    convertToFlorin 1 "s" ≠ convertToFlorins 1 "s" := by
  unfold convertToFlorins
  rw [if_neg (by decide : ¬((1 : ℚ) = 0 ∨ ("s" : String) = ""))]
  norm_num [convertToFlorin, florinRates_s, exportConversionRates_s]

/-- C3 (amended): the two conversion functions agree only in degenerate
cases: on the base code `f` (both return the amount unchanged) and at
amount 0; the export module otherwise uses a different table
(s = 0.05, d = 0.004167, gr = 0.0625, t = 0.5, l = 1) and treats unknown
codes with fallback rate 1 rather than 0. -/
theorem convert_refinement_amended :
    (∀ a : ℚ, convertToFlorins a "f" = convertToFlorin a "f") ∧
    (∀ c : String, convertToFlorins 0 c = convertToFlorin 0 c) := by
  constructor
  · intro a
    by_cases ha : a = 0
    · subst ha; simp [convertToFlorins, convertToFlorin, florinRates]
    · simp [convertToFlorins, convertToFlorin, florinRates, exportConversionRates, ha]
  · intro c
    cases h : florinRates c <;> simp [convertToFlorins, convertToFlorin, h]

/-! ## Aggregator: `aggregateCurrencyData` (script.js:1309–1325)

The source initialises `const totals = { f: 0, s: 0, d: 0, gr: 0 }` — four
properties only — and tallies an amount only when
`totals.hasOwnProperty(amount.currency)`.  `CurrencyTotals` models that
object; `currencyLookup` models reading a property off it (absent
properties read as `undefined`, i.e. `none`). -/

structure CurrencyTotals where
  f : ℚ
  s : ℚ
  d : ℚ
  gr : ℚ
deriving DecidableEq, Repr

/-- `totals.hasOwnProperty(code)` for the literal `{ f: 0, s: 0, d: 0, gr: 0 }`. -/
def hasOwnCurrency (code : String) : Bool :=
  code = "f" || code = "s" || code = "d" || code = "gr"

/-- `totals[code] += v` on the four-property object. -/
def addCurrency (tot : CurrencyTotals) (code : String) (v : ℚ) : CurrencyTotals :=
  if code = "f" then { tot with f := tot.f + v }
  else if code = "s" then { tot with s := tot.s + v }
  else if code = "d" then { tot with d := tot.d + v }
  else if code = "gr" then { tot with gr := tot.gr + v }
  else tot

/-- The per-amount contribution: converted value for the `value` metric,
`1` (an occurrence count) otherwise. -/
def currencyMetricValue (metric : String) (a : Amount) : ℚ :=
  if metric = "value" then convertToFlorin a.amount a.currency else 1

/-- `aggregateCurrencyData(transactions, metric)` (script.js:1309–1325). -/
def aggregateCurrencyData (transactions : List Transaction) (metric : String) :
    CurrencyTotals :=
  transactions.foldl
    (fun totals t =>
      t.amounts.foldl
        (fun totals a =>
          if hasOwnCurrency a.currency then
            addCurrency totals a.currency (currencyMetricValue metric a)
          else totals)
        totals)
    ⟨0, 0, 0, 0⟩

/-- Reading `totals[code]` off the result object: `undefined` (`none`) for
any code that is not one of its four properties. -/
def currencyLookup (tot : CurrencyTotals) (code : String) : Option ℚ :=
  if code = "f" then some tot.f
  else if code = "s" then some tot.s
  else if code = "d" then some tot.d
  else if code = "gr" then some tot.gr
  else none

def currencyGet (tot : CurrencyTotals) (code : String) : ℚ :=
  (currencyLookup tot code).getD 0

/-- The tally the amended claim asserts for a tallied code: the sum of the
per-amount contributions of exactly the amounts carrying that code. -/
def expectedCurrencyTally (ts : List Transaction) (metric code : String) : ℚ :=
  (((ts.flatMap (fun t => t.amounts)).filter (fun a => a.currency == code)).map
    (currencyMetricValue metric)).sum

theorem hasOwnCurrency_cases {c : String} (h : hasOwnCurrency c = true) :
    c = "f" ∨ c = "s" ∨ c = "d" ∨ c = "gr" := by
  have h' := h
  simp only [hasOwnCurrency, Bool.or_eq_true, decide_eq_true_eq] at h'
  tauto

theorem currencyGet_addCurrency_self (tot : CurrencyTotals) {c : String}
    (hc : hasOwnCurrency c = true) (v : ℚ) :
    currencyGet (addCurrency tot c v) c = currencyGet tot c + v := by
  rcases hasOwnCurrency_cases hc with h | h | h | h <;> subst h <;>
    simp [addCurrency, currencyGet, currencyLookup]

theorem currencyGet_addCurrency_ne (tot : CurrencyTotals) {c code : String}
    (hc : hasOwnCurrency c = true) (h : c ≠ code) (v : ℚ) :
    currencyGet (addCurrency tot c v) code = currencyGet tot code := by
  rcases hasOwnCurrency_cases hc with h1 | h1 | h1 | h1 <;> subst h1 <;>
    simp [addCurrency, currencyGet, currencyLookup, Ne.symm h]

theorem currencyGet_amts_foldl (metric code : String) :
    ∀ (amounts : List Amount) (tot : CurrencyTotals),
      currencyGet
        (amounts.foldl
          (fun totals a =>
            if hasOwnCurrency a.currency then
              addCurrency totals a.currency (currencyMetricValue metric a)
            else totals)
          tot) code
      = currencyGet tot code +
        (if hasOwnCurrency code then
          (((amounts.filter (fun a => a.currency == code)).map
            (currencyMetricValue metric)).sum)
        else 0) := by
  intro amounts
  induction amounts with
  | nil => intro tot; by_cases h : hasOwnCurrency code <;> simp [h]
  | cons a l ih =>
    intro tot
    rw [List.foldl_cons, ih]
    by_cases hac : hasOwnCurrency a.currency
    · by_cases heq : a.currency = code
      · subst heq
        rw [if_pos hac, currencyGet_addCurrency_self tot hac, if_pos hac, if_pos hac]
        simp [List.filter_cons]
        ring
      · rw [if_pos hac, currencyGet_addCurrency_ne tot hac heq]
        have : (a.currency == code) = false := by simpa using heq
        simp [List.filter_cons, this]
    · rw [if_neg hac]
      by_cases hcode : hasOwnCurrency code
      · have heq : (a.currency == code) = false := by
          rcases hasOwnCurrency_cases hcode with h | h | h | h <;> subst h <;>
            simpa using fun hcon => hac (by simp [hcon, hasOwnCurrency])
        simp [List.filter_cons, heq, hcode]
      · simp [hcode]

theorem currencyGet_aggregate (metric code : String) :
    ∀ (ts : List Transaction) (tot : CurrencyTotals),
      currencyGet
        (ts.foldl
          (fun totals t =>
            t.amounts.foldl
              (fun totals a =>
                if hasOwnCurrency a.currency then
                  addCurrency totals a.currency (currencyMetricValue metric a)
                else totals)
              totals)
          tot) code
      = currencyGet tot code +
        (if hasOwnCurrency code then expectedCurrencyTally ts metric code else 0) := by
  intro ts
  induction ts with
  | nil =>
    intro tot
    by_cases h : hasOwnCurrency code <;> simp [h, expectedCurrencyTally]
  | cons t l ih =>
    intro tot
    rw [List.foldl_cons, ih, currencyGet_amts_foldl]
    by_cases h : hasOwnCurrency code
    · simp only [if_pos h, expectedCurrencyTally, List.flatMap_cons, List.filter_append,
        List.map_append, List.sum_append]
      ring
    · simp [h]

theorem currencyLookup_eq_ite (tot : CurrencyTotals) (code : String) :
    currencyLookup tot code =
      if hasOwnCurrency code then some (currencyGet tot code) else none := by
  unfold currencyLookup currencyGet hasOwnCurrency
  split_ifs <;> simp_all <;> rfl

theorem currencyGet_init (code : String) :
    currencyGet ⟨0, 0, 0, 0⟩ code = 0 := by
  unfold currencyGet currencyLookup
  split_ifs <;> rfl

/-- C7 counterexample: `aggregateCurrencyData` initialises only the four
properties `f, s, d, gr`, so a transaction whose single amount is 8 of the
taler-class code `t` (worth exactly 1 florin) is tallied nowhere: the
result object has no `t` property and all four tallies stay 0 — refuting
the claim that every code of the full known set {f,s,d,gr,t,l,p} gets a
tally. -/
theorem aggregateCurrencyData_counterexample :
    currencyLookup
      (aggregateCurrencyData
        [⟨0, "T1", "", "x", [⟨8, "t"⟩], 1, "trade", [], ""⟩] "value") "t" = none
    ∧ aggregateCurrencyData
        [⟨0, "T1", "", "x", [⟨8, "t"⟩], 1, "trade", [], ""⟩] "value" = ⟨0, 0, 0, 0⟩ := by
  constructor <;> rfl

/-- C7 (amended): the currency aggregation tallies exactly the four codes
{f, s, d, gr} — for each of these the result carries the summed converted
value (metric `value`) or the occurrence count (any other metric) of that
code's amounts, and it carries no tally for any other code (in particular
none for t, l, p, although they are valid at parse time); a single
transaction whose only amount is 240 d yields a d-tally of exactly 1.0. -/
theorem aggregateCurrencyData_amended :
    (∀ (ts : List Transaction) (metric code : String),
      currencyLookup (aggregateCurrencyData ts metric) code =
        if hasOwnCurrency code then some (expectedCurrencyTally ts metric code)
        else none)
    ∧ currencyLookup
        (aggregateCurrencyData
          [⟨0, "T1", "", "x", [⟨240, "d"⟩], 1, "trade", [], ""⟩] "value") "d"
        = some 1 := by
  have main : ∀ (ts : List Transaction) (metric code : String),
      currencyLookup (aggregateCurrencyData ts metric) code =
        if hasOwnCurrency code then some (expectedCurrencyTally ts metric code)
        else none := by
    intro ts metric code
    rw [currencyLookup_eq_ite]
    by_cases h : hasOwnCurrency code
    · rw [if_pos h, if_pos h]
      have := currencyGet_aggregate metric code ts ⟨0, 0, 0, 0⟩
      rw [if_pos h] at this
      rw [aggregateCurrencyData, this, currencyGet_init, zero_add]
    · rw [if_neg h, if_neg h]
  refine ⟨main, ?_⟩
  rw [main]
  norm_num [hasOwnCurrency, expectedCurrencyTally, currencyMetricValue,
    convertToFlorin, florinRates_d]

/-! ## TransactionStore: `applyFilters` (script.js:430–469 and the
identical override at 1421–1481)

The method reads the UI controls; the embedding takes their `.value`
strings as parameters.  The sort comparator for `'date'` is
`(b.date || '9999').localeCompare(a.date || '9999')`; an ECMAScript sort
with a consistent comparator is the stable sort by the comparator's
preorder, modelled with `List.insertionSort` (a stable sort). -/

/-- The sort key of the `'date'` comparator: the date string, or the
sentinel `'9999'` when the date is absent (falsy). -/
def dateKeyChars (t : Transaction) : List Char :=
  if t.date = "" then "9999".data else t.date.data

/-- `comparator(a, b) ≤ 0` for the three `sortBy` values (`'date'`,
`'amount'`, `'entry'`); the default branch returns 0, i.e. always true. -/
def jsSortLe (sortByValue : String) (a b : Transaction) : Bool :=
  if sortByValue = "date" then charsLe (dateKeyChars b) (dateKeyChars a)
  else if sortByValue = "amount" then decide (b.totalFlorinValue ≤ a.totalFlorinValue)
  else if sortByValue = "entry" then charsLe a.entry.data b.entry.data
  else true

/-- `applyFilters()` (script.js:430–469): search filter (case-insensitive
substring of the entry text or of any extracted person/place), then
currency filter (some amount carries the selected code), then the sort. -/
def applyFilters (searchValue currencyValue sortByValue : String)
    (transactions : List Transaction) : List Transaction :=
  let searchTerm := lowerChars searchValue.data
  let filtered1 :=
    if searchTerm = [] then transactions
    else transactions.filter (fun t =>
      charsIncludes (lowerChars t.entry.data) searchTerm ||
      t.people.any (fun p => charsIncludes (lowerChars p.data) searchTerm))
  let filtered2 :=
    if currencyValue = "" then filtered1
    else filtered1.filter (fun t => t.amounts.any (fun a => a.currency == currencyValue))
  List.insertionSort (fun a b => jsSortLe sortByValue a b = true) filtered2

theorem applyFilters_empty_eq_sort (ts : List Transaction) :
    applyFilters "" "" "date" ts =
      List.insertionSort (fun a b => jsSortLe "date" a b = true) ts := rfl

theorem jsSortLe_date (a b : Transaction) :
    jsSortLe "date" a b = charsLe (dateKeyChars b) (dateKeyChars a) := rfl

/-- C2 counterexample: with one dated and one date-less transaction, the
date sort puts the date-less one (sentinel key `'9999'`, the largest key,
hence first in descending order) BEFORE the dated one — the claim's
"absent dates after all dated transactions" fails. -/
theorem applyFilters_date_sort_counterexample :
    ¬ List.Pairwise (fun a b : Transaction => a.date = "" → b.date = "")
      (applyFilters "" "" "date"
        [⟨0, "T1", "1400-01-01", "a", [], 0, "trade", [], ""⟩,
         ⟨1, "T2", "", "b", [], 0, "trade", [], ""⟩]) := by
  have hout : applyFilters "" "" "date"
      [⟨0, "T1", "1400-01-01", "a", [], 0, "trade", [], ""⟩,
       ⟨1, "T2", "", "b", [], 0, "trade", [], ""⟩] =
      [⟨1, "T2", "", "b", [], 0, "trade", [], ""⟩,
       ⟨0, "T1", "1400-01-01", "a", [], 0, "trade", [], ""⟩] := by decide
  rw [hout]
  intro hp
  rcases List.pairwise_cons.mp hp with ⟨h1, _⟩
  exact absurd (h1 ⟨0, "T1", "1400-01-01", "a", [], 0, "trade", [], ""⟩ (by simp) rfl)
    (by decide)

/-- C2 (amended): the empty filter with sort key `'date'` returns all
transactions, sorted so that the comparator key (the date, with absent
dates replaced by the sentinel `'9999'`) is non-increasing — date
descending — with every transaction whose date is absent placed BEFORE
(not after) all transactions that have a date, the sentinel being larger
than any real date. -/
theorem applyFilters_date_sort_amended (ts : List Transaction)
    (hd : ∀ t ∈ ts, t.date = "" ∨ charsLe ("9999".data) t.date.data = false) :
    (applyFilters "" "" "date" ts).Perm ts
    ∧ List.Pairwise
        (fun a b => charsLe (dateKeyChars b) (dateKeyChars a) = true)
        (applyFilters "" "" "date" ts)
    ∧ List.Pairwise (fun a b => a.date ≠ "" → b.date ≠ "")
        (applyFilters "" "" "date" ts) := by
  have hperm : (applyFilters "" "" "date" ts).Perm ts := by
    rw [applyFilters_empty_eq_sort]
    exact List.perm_insertionSort _ ts
  haveI htot : IsTotal Transaction (fun a b => jsSortLe "date" a b = true) := by
    constructor
    intro a b
    rw [jsSortLe_date, jsSortLe_date]
    exact charsLe_total (dateKeyChars b) (dateKeyChars a)
  haveI htrans : IsTrans Transaction (fun a b => jsSortLe "date" a b = true) := by
    constructor
    intro a b c hab hbc
    rw [jsSortLe_date] at hab hbc ⊢
    exact charsLe_trans hbc hab
  have hsorted : List.Pairwise
      (fun a b => charsLe (dateKeyChars b) (dateKeyChars a) = true)
      (applyFilters "" "" "date" ts) := by
    rw [applyFilters_empty_eq_sort]
    have := List.sorted_insertionSort (fun a b => jsSortLe "date" a b = true) ts
    exact this.imp (fun h => by rwa [jsSortLe_date] at h)
  refine ⟨hperm, hsorted, ?_⟩
  refine hsorted.imp_of_mem ?_
  intro a b ha hb hle hadate hbempty
  have hamem : a ∈ ts := hperm.mem_iff.mp ha
  rcases hd a hamem with h | h
  · exact hadate h
  · rw [dateKeyChars, if_pos hbempty, dateKeyChars, if_neg hadate] at hle
    rw [hle] at h
    exact Bool.noConfusion h

theorem applyFilters_date_sort_amended_witness :
    ((∀ t ∈ ([⟨0, "T1", "1400-01-01", "a", [], 0, "trade", [], ""⟩,
        ⟨1, "T2", "", "b", [], 0, "trade", [], ""⟩] : List Transaction),
        t.date = "" ∨ charsLe ("9999".data) t.date.data = false)
    ∧ (applyFilters "" "" "date"
        [⟨0, "T1", "1400-01-01", "a", [], 0, "trade", [], ""⟩,
         ⟨1, "T2", "", "b", [], 0, "trade", [], ""⟩]).Perm
        [⟨0, "T1", "1400-01-01", "a", [], 0, "trade", [], ""⟩,
         ⟨1, "T2", "", "b", [], 0, "trade", [], ""⟩]) :=
  ⟨by decide,
   (applyFilters_date_sort_amended _ (by decide)).1⟩

/-! ## Aggregator: `updateHistogramChart` (script.js:1083–1146)

The chart-facing core: collect the individual amounts (optionally
restricted to one currency), drop non-positive ones, and bin the rest into
`bucketCount` equal-width buckets between the observed min and max; an
amount falls in bucket `i` when `start_i ≤ a < start_(i+1)`, and the last
bucket additionally catches `a ≥ start_(N-1)` (the `else if` at
script.js:1129).  Empty (positive-)input clears the chart. -/

/-- The amounts extracted from the transactions (script.js:1092–1101). -/
def histogramAmounts (transactions : List Transaction) (selectedCurrency : String) :
    List ℚ :=
  transactions.flatMap (fun t =>
    (t.amounts.filter (fun a =>
      selectedCurrency == "all" || a.currency == selectedCurrency)).map
      (fun a => a.amount))

def bucketStart (minAmount bucketSize : ℚ) (i : Nat) : ℚ :=
  minAmount + (i : ℚ) * bucketSize

/-- Membership of an amount in bucket `i` (the two increment branches at
script.js:1127–1132; the second is an `else if`). -/
def inBucket (bucketCount : Nat) (minAmount bucketSize : ℚ) (i : Nat) (a : ℚ) : Bool :=
  (decide (bucketStart minAmount bucketSize i ≤ a) &&
     decide (a < bucketStart minAmount bucketSize (i + 1)))
  || (decide (i = bucketCount - 1) &&
      !(decide (bucketStart minAmount bucketSize i ≤ a) &&
         decide (a < bucketStart minAmount bucketSize (i + 1))) &&
      decide (bucketStart minAmount bucketSize i ≤ a))

/-- Model of `Number#toFixed(1)` (label formatting only; no claim depends
on the rendered text). -/
def toFixed1 (q : ℚ) : String :=
  let s : ℤ := ⌊q * 10 + 1 / 2⌋
  toString (s / 10) ++ "." ++ toString ((s % 10).natAbs)

def histogramLabel (minAmount bucketSize : ℚ) (i : Nat) : String :=
  toFixed1 (bucketStart minAmount bucketSize i) ++ "-" ++
    toFixed1 (bucketStart minAmount bucketSize (i + 1))

/-- The histogram computation of `updateHistogramChart` on an amounts
list: the `(labels, counts)` pair handed to the chart. -/
def histogramCore (allAmounts : List ℚ) (bucketCount : Nat) :
    List String × List Nat :=
  match allAmounts.filter (fun a => decide (0 < a)) with
  | [] => ([], [])
  | a :: rest =>
    let minAmount := rest.foldl min a
    let maxAmount := rest.foldl max a
    let bucketSize := (maxAmount - minAmount) / (bucketCount : ℚ)
    ((List.range bucketCount).map (histogramLabel minAmount bucketSize),
     (List.range bucketCount).map
       (fun i => (a :: rest).countP (inBucket bucketCount minAmount bucketSize i)))

theorem foldl_min_le : ∀ (l : List ℚ) (a : ℚ),
    l.foldl min a ≤ a ∧ ∀ x ∈ l, l.foldl min a ≤ x := by
  intro l
  induction l with
  | nil => intro a; exact ⟨le_refl a, by simp⟩
  | cons b l ih =>
    intro a
    rw [List.foldl_cons]
    refine ⟨le_trans (ih (min a b)).1 (min_le_left a b), ?_⟩
    intro x hx
    rcases List.mem_cons.mp hx with h | h
    · subst h; exact le_trans (ih (min a x)).1 (min_le_right a x)
    · exact (ih (min a b)).2 x h

theorem le_foldl_max : ∀ (l : List ℚ) (a : ℚ),
    a ≤ l.foldl max a ∧ ∀ x ∈ l, x ≤ l.foldl max a := by
  intro l
  induction l with
  | nil => intro a; exact ⟨le_refl a, by simp⟩
  | cons b l ih =>
    intro a
    rw [List.foldl_cons]
    refine ⟨le_trans (le_max_left a b) (ih (max a b)).1, ?_⟩
    intro x hx
    rcases List.mem_cons.mp hx with h | h
    · subst h; exact le_trans (le_max_right a x) (ih (max a x)).1
    · exact (ih (max a b)).2 x h

theorem inBucket_iff (N : Nat) (minA size : ℚ) (j : Nat) (x : ℚ) :
    inBucket N minA size j x = true ↔
      ((bucketStart minA size j ≤ x ∧ x < bucketStart minA size (j + 1)) ∨
       (j = N - 1 ∧ bucketStart minA size j ≤ x)) := by
  unfold inBucket
  by_cases h3 : j = N - 1
  · subst h3
    by_cases h1 : bucketStart minA size (N - 1) ≤ x <;>
      by_cases h2 : x < bucketStart minA size (N - 1 + 1) <;>
      simp [h1, h2]
  · by_cases h1 : bucketStart minA size j ≤ x <;>
      by_cases h2 : x < bucketStart minA size (j + 1) <;>
      simp [h1, h2, h3]

theorem countP_range_eq_one (N i0 : Nat) (p : Nat → Bool) (h0 : i0 ∈ List.range N)
    (h : ∀ j ∈ List.range N, (p j = true ↔ j = i0)) :
    (List.range N).countP p = 1 := by
  have e1 : (List.range N).countP p = (List.range N).countP (fun j => j == i0) :=
    List.countP_congr (fun j hj => by rw [h j hj]; simp)
  have e2 : (List.range N).countP (fun j => j == i0) = List.count i0 (List.range N) := by
    simp [List.count]
  rw [e1, e2]
  exact List.count_eq_one_of_mem (List.nodup_range N) h0

theorem countP_inBucket_eq_one (N : Nat) (hN : 1 ≤ N) (minA maxA x : ℚ)
    (hmin : minA ≤ x) (hmax : x ≤ maxA) :
    (List.range N).countP
      (fun i => inBucket N minA ((maxA - minA) / (N : ℚ)) i x) = 1 := by
  have hmm : minA ≤ maxA := le_trans hmin hmax
  have hNpos : (0 : ℚ) < (N : ℚ) := by exact_mod_cast Nat.lt_of_lt_of_le Nat.zero_lt_one hN
  set size := (maxA - minA) / (N : ℚ) with hsizedef
  have hsize0 : 0 ≤ size := div_nonneg (sub_nonneg.mpr hmm) hNpos.le
  have hNsize : (N : ℚ) * size = maxA - minA := by
    rw [hsizedef]; field_simp
  have hcastN1 : ((N - 1 : ℕ) : ℚ) = (N : ℚ) - 1 := by
    rw [Nat.cast_sub hN]; norm_num
  rcases eq_or_lt_of_le hmm with hEq | hlt
  · -- observed min = max: bucket width 0, everything lands in the last bucket
    have hx : x = minA := le_antisymm (hEq ▸ hmax) hmin
    have hsz : size = 0 := by rw [hsizedef, ← hEq, sub_self, zero_div]
    apply countP_range_eq_one N (N - 1)
    · rw [List.mem_range]; omega
    · intro j hj
      rw [inBucket_iff]
      constructor
      · rintro (⟨_, h2⟩ | ⟨h1, _⟩)
        · rw [bucketStart, hsz, mul_zero, add_zero, hx] at h2
          exact absurd h2 (lt_irrefl minA)
        · exact h1
      · intro hj'
        refine Or.inr ⟨hj', ?_⟩
        rw [bucketStart, hsz, mul_zero, add_zero]
        exact hmin
  · have hszpos : 0 < size := by
      rw [hsizedef]; exact div_pos (sub_pos.mpr hlt) hNpos
    rcases eq_or_lt_of_le hmax with hxmax | hxlt
    · -- x is the observed maximum: only the closed last bucket catches it
      have hfirstF : ∀ j : Nat, j < N → ¬ (x < bucketStart minA size (j + 1)) := by
        intro j hj
        have hjN : ((j : ℚ) + 1) ≤ (N : ℚ) := by exact_mod_cast hj
        have : bucketStart minA size (j + 1) ≤ maxA := by
          rw [bucketStart]
          push_cast
          nlinarith
        rw [hxmax]
        exact not_lt.mpr this
      apply countP_range_eq_one N (N - 1)
      · rw [List.mem_range]; omega
      · intro j hj
        rw [List.mem_range] at hj
        rw [inBucket_iff]
        constructor
        · rintro (⟨_, h2⟩ | ⟨h1, _⟩)
          · exact absurd h2 (hfirstF j hj)
          · exact h1
        · intro hj'
          subst hj'
          refine Or.inr ⟨rfl, ?_⟩
          rw [bucketStart, hxmax, hcastN1]
          nlinarith
    · -- x below the maximum: the unique bucket is ⌊(x − min)/size⌋
      set q := (x - minA) / size with hqdef
      have hq0 : 0 ≤ q := by
        rw [hqdef]; exact div_nonneg (sub_nonneg.mpr hmin) hszpos.le
      have hqN : q < (N : ℚ) := by
        rw [hqdef, div_lt_iff₀ hszpos]
        nlinarith
      have hi0N : ⌊q⌋₊ < N := by
        rw [Nat.floor_lt hq0]; exact hqN
      have hstart : bucketStart minA size ⌊q⌋₊ ≤ x := by
        have h1 : (⌊q⌋₊ : ℚ) ≤ q := Nat.floor_le hq0
        rw [hqdef, le_div_iff₀ hszpos] at h1
        rw [bucketStart]; linarith
      have hend : x < bucketStart minA size (⌊q⌋₊ + 1) := by
        have h1 : q < (⌊q⌋₊ : ℚ) + 1 := Nat.lt_floor_add_one q
        rw [hqdef, div_lt_iff₀ hszpos] at h1
        rw [bucketStart]; push_cast; nlinarith
      apply countP_range_eq_one N ⌊q⌋₊
      · exact List.mem_range.mpr hi0N
      · intro j hj
        rw [List.mem_range] at hj
        rw [inBucket_iff]
        constructor
        · rintro (⟨h1, h2⟩ | ⟨rfl, h3⟩)
          · have hj1 : (j : ℚ) ≤ q := by
              rw [bucketStart] at h1
              rw [hqdef, le_div_iff₀ hszpos]; linarith
            have hj2 : q < (j : ℚ) + 1 := by
              rw [bucketStart] at h2
              push_cast at h2
              rw [hqdef, div_lt_iff₀ hszpos]; linarith
            exact ((Nat.floor_eq_iff hq0).mpr ⟨hj1, hj2⟩).symm
          · have h4 : (N : ℚ) - 1 ≤ q := by
              rw [bucketStart, hcastN1] at h3
              rw [hqdef, le_div_iff₀ hszpos]; linarith
            have h5 : N - 1 ≤ ⌊q⌋₊ := Nat.le_floor (by rw [hcastN1]; exact h4)
            omega
        · intro hj'
          subst hj'
          exact Or.inl ⟨hstart, hend⟩

theorem sum_map_ite_eq_countP (p : Nat → Bool) : ∀ l : List Nat,
    (l.map (fun i => if p i then 1 else 0)).sum = l.countP p := by
  intro l
  induction l with
  | nil => rfl
  | cons x xs ih =>
    rw [List.map_cons, List.sum_cons, ih, List.countP_cons]
    by_cases h : p x
    · simp [h]; omega
    · simp [h]

theorem sum_map_add_nat (f g : Nat → Nat) : ∀ l : List Nat,
    (l.map (fun i => f i + g i)).sum = (l.map f).sum + (l.map g).sum := by
  intro l
  induction l with
  | nil => rfl
  | cons x xs ih => simp [List.map_cons, List.sum_cons, ih]; omega

theorem counts_sum (N : Nat) (minA size : ℚ) :
    ∀ l : List ℚ,
      (∀ x ∈ l, (List.range N).countP (fun i => inBucket N minA size i x) = 1) →
      ((List.range N).map (fun i => l.countP (inBucket N minA size i))).sum
        = l.length := by
  intro l
  induction l with
  | nil => intro _; simp
  | cons x xs ih =>
    intro h
    have hx := h x (List.mem_cons_self x xs)
    have hxs := ih (fun y hy => h y (List.mem_cons_of_mem x hy))
    simp only [List.countP_cons]
    rw [sum_map_add_nat (fun i => xs.countP (inBucket N minA size i))
        (fun i => if inBucket N minA size i x then 1 else 0)]
    rw [hxs, sum_map_ite_eq_countP, hx, List.length_cons]

/-- C9: for every amounts list and bucket count N ≥ 1, the histogram's
bucket counts sum to the number of strictly positive amounts — each
positive amount lands in exactly one of the N equal-width half-open bins
between the observed min and max, the maximum being caught by the closed
last bin — and an empty input yields empty labels and counts. -/
theorem histogram_counts_sum (allAmounts : List ℚ) (N : Nat) (hN : 1 ≤ N) :
    ((histogramCore allAmounts N).2.sum
      = (allAmounts.filter (fun a => decide (0 < a))).length)
    ∧ (allAmounts = [] → histogramCore allAmounts N = ([], [])) := by
  constructor
  · unfold histogramCore
    cases hfil : allAmounts.filter (fun a => decide (0 < a)) with
    | nil => simp
    | cons a rest =>
      simp only
      apply counts_sum
      intro x hx
      have hmin : rest.foldl min a ≤ x := by
        rcases List.mem_cons.mp hx with h | h
        · subst h; exact (foldl_min_le rest x).1
        · exact (foldl_min_le rest a).2 x h
      have hmax : x ≤ rest.foldl max a := by
        rcases List.mem_cons.mp hx with h | h
        · subst h; exact (le_foldl_max rest x).1
        · exact (le_foldl_max rest a).2 x h
      exact countP_inBucket_eq_one N hN (rest.foldl min a) (rest.foldl max a) x hmin hmax
  · intro h
    subst h
    rfl

theorem histogram_counts_sum_witness :
    (1 ≤ 4) ∧
      ((histogramCore [5, 2, 9] 4).2.sum
        = (([5, 2, 9] : List ℚ).filter (fun a => decide (0 < a))).length) :=
  ⟨by decide, (histogram_counts_sum [5, 2, 9] 4 (by decide)).1⟩

/-! ## RecordValidator: `validateNumericValue`, `isValidCurrency`,
`validateAndParseDate` (script.js:329–398)

The host primitives `parseFloat` and the generic `new Date(string)` parser
are not repository code; they are supplied through `JSEnv`.  A host `Date`
is modelled as a calendar date (`JSDate`); `getFullYear` and the year
rendered by `toISOString` are taken to agree. -/

/-- A host `Date` object (month `0`–`11` and day-of-month `1`–`31`, as
rendered by `toISOString`). -/
structure JSDate where
  year : Int
  month : Fin 12
  day : Fin 31
deriving DecidableEq, Repr

/-- The host primitives used by the validators: the generic
`new Date(string)` parse (`none` = Invalid Date) and `parseFloat`
(`none` = `NaN`). -/
structure JSEnv where
  dateParse : String → Option JSDate
  jsParseFloat : String → Option ℚ

/-- `isValidCurrency(currency)` (script.js:395–398). -/
def isValidCurrency (currency : String) : Bool :=
  (["f", "s", "d", "gr", "t", "l", "p"] : List String).contains currency

/-- `validateNumericValue(valueString)` (script.js:373–393): trim, parse,
reject `NaN`, negatives and values above 100000. -/
def validateNumericValue (env : JSEnv) (valueString : String) : Option ℚ :=
  if trimChars valueString.data = [] then none
  else
    match env.jsParseFloat (String.mk (trimChars valueString.data)) with
    | none => none
    | some v => if v < 0 ∨ 100000 < v then none else some v

def digitChar (n : Nat) : Char := Char.ofNat (48 + n % 10)

theorem digitChar_isDigit (n : Nat) : (digitChar n).isDigit = true := by
  have h : n % 10 < 10 := Nat.mod_lt _ (by norm_num)
  unfold digitChar
  interval_cases h : n % 10 <;> decide

theorem digitChar_toNat (n : Nat) : (digitChar n).toNat = 48 + n % 10 := by
  have h : n % 10 < 10 := Nat.mod_lt _ (by norm_num)
  unfold digitChar
  interval_cases h : n % 10 <;> decide

/-- Two-digit zero-padded rendering (as in `toISOString`). -/
def pad2 (n : Nat) : List Char :=
  if n < 10 then ['0', digitChar n] else [digitChar (n / 10), digitChar n]

/-- Four-digit year rendering (as in `toISOString`, years 1000–9999). -/
def year4 (y : Nat) : List Char :=
  [digitChar (y / 1000), digitChar (y / 100), digitChar (y / 10), digitChar y]

/-- Model of `date.toISOString().split('T')[0]`. -/
def toISODateString (d : JSDate) : String :=
  String.mk (year4 d.year.toNat ++ '-' :: pad2 (d.month.val + 1) ++ '-' :: pad2 (d.day.val + 1))

/-- The regex `/^\d{4}-\d{2}-\d{2}$/` (script.js:337). -/
def isISODateShape (s : String) : Bool :=
  match s.data with
  | [y1, y2, y3, y4, h1, m1, m2, h2, d1, d2] =>
      y1.isDigit && y2.isDigit && y3.isDigit && y4.isDigit && h1 = '-' &&
      m1.isDigit && m2.isDigit && h2 = '-' && d1.isDigit && d2.isDigit
  | _ => false

def charsToNat (l : List Char) : Nat :=
  l.foldl (fun acc c => acc * 10 + (c.toNat - 48)) 0

/-- `parseInt(dateString.substring(0, 4))` on a shape-checked date string. -/
def yearOfDateString (s : String) : Nat := charsToNat (s.data.take 4)

/-- `validateAndParseDate(dateString)` (script.js:329–371): the ISO
fast-path with the [1200, 1800] year bound, otherwise the generic host
parse re-validated against the same bound; every failure yields `''`. -/
def validateAndParseDate (env : JSEnv) (dateString : String) : String :=
  if dateString = "" then ""
  else if isISODateShape dateString &&
      decide (1200 ≤ yearOfDateString dateString) &&
      decide (yearOfDateString dateString ≤ 1800) then
    dateString
  else
    match env.dateParse dateString with
    | some date =>
        if 1200 ≤ date.year ∧ date.year ≤ 1800 then toISODateString date else ""
    | none => ""

/-- The date invariant of the spec: absent, or ISO-shaped with the year in
[1200, 1800]. -/
def dateWithinBounds (s : String) : Prop :=
  s = "" ∨ (isISODateShape s = true ∧
    1200 ≤ yearOfDateString s ∧ yearOfDateString s ≤ 1800)

theorem pad2_eq (n : Nat) : ∃ c1 c2 : Char,
    pad2 n = [c1, c2] ∧ c1.isDigit = true ∧ c2.isDigit = true := by
  unfold pad2
  by_cases h : n < 10
  · exact ⟨'0', digitChar n, by rw [if_pos h], by decide, digitChar_isDigit n⟩
  · exact ⟨digitChar (n / 10), digitChar n, by rw [if_neg h], digitChar_isDigit _,
      digitChar_isDigit n⟩

theorem isISODateShape_toISO (d : JSDate) :
    isISODateShape (toISODateString d) = true := by
  obtain ⟨m1, m2, hm, hm1, hm2⟩ := pad2_eq (d.month.val + 1)
  obtain ⟨d1, d2, hdd, hd1, hd2⟩ := pad2_eq (d.day.val + 1)
  unfold toISODateString year4
  rw [hm, hdd]
  simp [isISODateShape, digitChar_isDigit, hm1, hm2, hd1, hd2]

theorem charsToNat_four (a b c d : Nat) :
    charsToNat [digitChar a, digitChar b, digitChar c, digitChar d]
      = ((a % 10) * 10 + b % 10) * 10 * 10 + (c % 10) * 10 + d % 10 := by
  simp [charsToNat, List.foldl, digitChar_toNat]
  ring

theorem yearOf_toISO (d : JSDate) :
    yearOfDateString (toISODateString d) = d.year.toNat % 10000 := by
  obtain ⟨m1, m2, hm, _, _⟩ := pad2_eq (d.month.val + 1)
  obtain ⟨d1, d2, hdd, _, _⟩ := pad2_eq (d.day.val + 1)
  unfold yearOfDateString toISODateString year4
  rw [hm, hdd]
  simp only [List.cons_append, List.nil_append]
  rw [show ((String.mk (digitChar (d.year.toNat / 1000) :: digitChar (d.year.toNat / 100) ::
      digitChar (d.year.toNat / 10) :: digitChar d.year.toNat :: '-' :: m1 :: m2 :: '-' ::
      d1 :: [d2])).data.take 4)
    = [digitChar (d.year.toNat / 1000), digitChar (d.year.toNat / 100),
       digitChar (d.year.toNat / 10), digitChar d.year.toNat] from rfl]
  rw [charsToNat_four]
  omega

theorem validateAndParseDate_bounds (env : JSEnv) (s : String) :
    dateWithinBounds (validateAndParseDate env s) := by
  unfold validateAndParseDate
  by_cases h0 : s = ""
  · rw [if_pos h0]; exact Or.inl rfl
  rw [if_neg h0]
  by_cases h1 : (isISODateShape s &&
      decide (1200 ≤ yearOfDateString s) && decide (yearOfDateString s ≤ 1800)) = true
  · rw [if_pos h1]
    rcases Bool.and_eq_true_iff.mp h1 with ⟨h2, h3⟩
    rcases Bool.and_eq_true_iff.mp h2 with ⟨h4, h5⟩
    exact Or.inr ⟨h4, by simpa using h5, by simpa using h3⟩
  · rw [if_neg h1]
    cases hp : env.dateParse s with
    | none => exact Or.inl rfl
    | some date =>
      show dateWithinBounds
        (if 1200 ≤ date.year ∧ date.year ≤ 1800 then toISODateString date else "")
      by_cases h2 : 1200 ≤ date.year ∧ date.year ≤ 1800
      · rw [if_pos h2]
        refine Or.inr ⟨isISODateShape_toISO date, ?_, ?_⟩
        · rw [yearOf_toISO]
          have hy : 1200 ≤ date.year.toNat := by omega
          omega
        · rw [yearOf_toISO]
          have hy : date.year.toNat ≤ 1800 := by omega
          omega
      · rw [if_neg h2]; exact Or.inl rfl

/-! ## EntityExtractor (main path): `extractPeopleAndPlaces`
(script.js:421–428)

The regex `/[A-Z][a-z]+(?:\s+[A-Z][a-z]+)*/g` is scanned with `match`:
successive non-overlapping leftmost matches.  The pattern is
deterministic maximal-munch (every quantifier's continuation starts with a
different character class), so the matcher below needs no backtracking. -/

/-- One `[A-Z][a-z]+` word at the head of the input. -/
def matchCapAsciiWord (l : List Char) : Option (List Char × List Char) :=
  match l with
  | c :: rest =>
      if isAsciiUpper c then
        let run := rest.takeWhile isAsciiLower
        if run.isEmpty then none else some (c :: run, rest.drop run.length)
      else none
  | [] => none

/-- The greedy `(?:\s+[A-Z][a-z]+)*` tail. -/
def matchCapSeqMore : Nat → List Char → List Char × List Char
  | 0, l => ([], l)
  | fuel + 1, l =>
      let sp := l.takeWhile isSpaceJS
      if sp.isEmpty then ([], l)
      else
        match matchCapAsciiWord (l.drop sp.length) with
        | some (w, r) =>
            let res := matchCapSeqMore fuel r
            (sp ++ w ++ res.1, res.2)
        | none => ([], l)

/-- The whole pattern anchored at the head of the input. -/
def matchCapSeqAt (l : List Char) : Option (List Char × List Char) :=
  (matchCapAsciiWord l).map (fun wr =>
    let res := matchCapSeqMore (wr.2.length + 1) wr.2
    (wr.1 ++ res.1, res.2))

/-- `regex.exec` loop: leftmost non-overlapping matches, left to right.
`matchAt prev l` anchors at the head of `l` with `prev` the character just
before it (for `\b`); it returns (full match, captured value, rest). -/
def scanRegex (matchAt : Option Char → List Char → Option (List Char × List Char × List Char)) :
    Nat → Option Char → List Char → List (List Char)
  | 0, _, _ => []
  | _ + 1, _, [] => []
  | fuel + 1, prev, c :: rest =>
      match matchAt prev (c :: rest) with
      | some (m, v, r) => v :: scanRegex matchAt fuel m.getLast? r
      | none => scanRegex matchAt fuel (some c) rest

/-- `extractPeopleAndPlaces(text)` (script.js:421–428): all matches of the
capitalised-sequence regex, keeping those longer than 2 characters that
are not in the stoplist. -/
def extractPeopleAndPlaces (text : String) : List String :=
  let found := scanRegex
    (fun _ l => (matchCapSeqAt l).map (fun mr => (mr.1, mr.1, mr.2)))
    (text.data.length + 1) none text.data
  (found.map String.mk).filter (fun m =>
    decide (2 < m.length) &&
    !((["Item", "Maii", "Aprilis", "Anno"] : List String).contains m))

/-! ## TransactionParser: `parseXMLData` (script.js:233–318)

A decoded record (the element tree is an external collaborator) exposes
the trimmed `entry` and `when` text, its `Money` sub-elements (each with
its quantity text and optional `rdf:resource` of the unit), and the raw
markup.  One record yields at most one transaction; pushing mutates
`this.transactions`, which `parseGo`'s accumulator models. -/

structure MoneyElem where
  quantityText : String
  unitResource : Option String
deriving DecidableEq, Repr

structure XMLRecord where
  entry : String
  whenText : String
  money : List MoneyElem
  raw : String
deriving DecidableEq, Repr

/-- Currency extraction (script.js:253–261):
`unitResource.split('#').pop()`, `'unknown'` when the unit or its
`rdf:resource` is missing. -/
def currencyOfMoney (m : MoneyElem) : String :=
  match m.unitResource with
  | none => "unknown"
  | some res => String.mk (afterLastHash res.data)

/-- One `Money` element (script.js:250–277): keep the amount only when the
quantity text is non-empty, the currency is extracted and known, and the
numeric value validates; accumulate the florin total for kept amounts. -/
def processMoney (env : JSEnv) (st : List Amount × ℚ) (m : MoneyElem) :
    List Amount × ℚ :=
  let currency := currencyOfMoney m
  if m.quantityText ≠ "" ∧ currency ≠ "unknown" then
    match validateNumericValue env m.quantityText with
    | some amount =>
        if isValidCurrency currency then
          (st.1 ++ [⟨amount, currency⟩], st.2 + convertToFlorin amount currency)
        else st
    | none => st
  else st

/-- The type inference (script.js:280–286); the keyword `'fÃ¼r'` is the
literal (mojibake) text of the source file — it is searched as written,
with its uppercase `Ã`, inside the lowercased entry, so that branch can
only ever fire through `'dabimus'`. -/
def transactionTypeOf (entry : String) : String :=
  let entryLower := lowerChars entry.data
  if charsIncludes entryLower "recepimus".data || charsIncludes entryLower "einnahmen".data
  then "income"
  else if charsIncludes entryLower "fÃ¼r".data ||
      charsIncludes entryLower "dabimus".data
  then "expense"
  else "trade"

/-- One iteration of the `forEach` over records (script.js:240–311):
`idx` is the raw record index (for `originalId`), `nextId` the current
`this.transactions.length`. -/
def parseOne (env : JSEnv) (idx nextId : Nat) (r : XMLRecord) : Option Transaction :=
  let entry := r.entry
  let whenDate := validateAndParseDate env r.whenText
  let acc := r.money.foldl (processMoney env) ([], 0)
  if entry = "" then none
  else some
    { id := nextId
      originalId := "T" ++ toString (idx + 1)
      date := whenDate
      entry := entry
      amounts := acc.1
      totalFlorinValue := acc.2
      type := transactionTypeOf entry
      people := extractPeopleAndPlaces entry
      rawXML := r.raw }

def parseGo (env : JSEnv) : Nat → List Transaction → List XMLRecord → List Transaction
  | _, acc, [] => acc
  | idx, acc, r :: rs =>
      match parseOne env idx acc.length r with
      | some t => parseGo env (idx + 1) (acc ++ [t]) rs
      | none => parseGo env (idx + 1) acc rs

/-- `parseXMLData` (script.js:233–318) as a function of the decoded
records: the final value of `this.transactions`. -/
def parseXMLData (env : JSEnv) (records : List XMLRecord) : List Transaction :=
  parseGo env 0 [] records

theorem parseOne_eq_some {env : JSEnv} {idx nextId : Nat} {r : XMLRecord}
    {t : Transaction} (h : parseOne env idx nextId r = some t) :
    t.id = nextId ∧ t.date = validateAndParseDate env r.whenText ∧ t.entry = r.entry := by
  unfold parseOne at h
  by_cases he : r.entry = ""
  · rw [if_pos he] at h; exact absurd h (by simp)
  · rw [if_neg he] at h
    injection h with h
    subst h
    exact ⟨rfl, rfl, rfl⟩

/-- The invariant of C10: each stored transaction's id is its index. -/
def idsFrom (l : List Transaction) : Prop :=
  ∀ i (h : i < l.length), (l.get ⟨i, h⟩).id = i

theorem idsFrom_append {acc : List Transaction} {t : Transaction}
    (hacc : idsFrom acc) (ht : t.id = acc.length) : idsFrom (acc ++ [t]) := by
  intro i h
  rw [List.get_eq_getElem]
  rcases Nat.lt_or_ge i acc.length with hi | hi
  · rw [List.getElem_append_left hi]
    have := hacc i hi
    rwa [List.get_eq_getElem] at this
  · have hlen : i = acc.length := by
      have := h
      simp only [List.length_append, List.length_cons, List.length_nil] at this
      omega
    rw [List.getElem_append_right hi]
    subst hlen
    simpa using ht

theorem parseGo_cons (env : JSEnv) (idx : Nat) (acc : List Transaction)
    (r : XMLRecord) (rs : List XMLRecord) :
    parseGo env idx acc (r :: rs) =
      match parseOne env idx acc.length r with
      | some t => parseGo env (idx + 1) (acc ++ [t]) rs
      | none => parseGo env (idx + 1) acc rs := rfl

theorem parseGo_ids : ∀ (rs : List XMLRecord) (env : JSEnv) (idx : Nat)
    (acc : List Transaction), idsFrom acc → idsFrom (parseGo env idx acc rs) := by
  intro rs
  induction rs with
  | nil => intro env idx acc hacc; exact hacc
  | cons r rs ih =>
    intro env idx acc hacc
    rw [parseGo_cons]
    cases hpo : parseOne env idx acc.length r with
    | some t =>
      exact ih env (idx + 1) (acc ++ [t]) (idsFrom_append hacc (parseOne_eq_some hpo).1)
    | none =>
      exact ih env (idx + 1) acc hacc

theorem find_ids : ∀ (l : List Transaction) (o : Nat),
    (∀ i (h : i < l.length), (l.get ⟨i, h⟩).id = o + i) →
    ∀ k (hk : k < l.length),
      l.find? (fun t => t.id == o + k) = some (l.get ⟨k, hk⟩) := by
  intro l
  induction l with
  | nil => intro o _ k hk; exact absurd hk (by simp)
  | cons x xs ih =>
    intro o H k hk
    have hx : x.id = o := by
      have := H 0 (by simp)
      simpa using this
    cases k with
    | zero =>
      rw [List.find?_cons]
      have hp : (x.id == o + 0) = true := by simp [hx]
      rw [hp]
      rfl
    | succ k =>
      have hp : (x.id == o + (k + 1)) = false := by
        simp [hx]
      rw [List.find?_cons]
      rw [hp]
      have H' : ∀ i (h : i < xs.length), (xs.get ⟨i, h⟩).id = (o + 1) + i := by
        intro i h
        have h2 : i + 1 < (x :: xs).length := by simpa using Nat.succ_lt_succ h
        have := H (i + 1) h2
        simp only [List.get_eq_getElem, List.getElem_cons_succ] at this ⊢
        omega
      have hk' : k < xs.length := by simpa using Nat.lt_of_succ_lt_succ hk
      have := ih (o + 1) H' k hk'
      rw [show o + (k + 1) = (o + 1) + k from by omega]
      rw [this]
      rfl

/-- C10: after every load, each stored transaction's id equals its index
in the transactions array (ids are 0..n−1 over kept transactions), so the
detail-modal's `this.transactions.find(t => t.id === id)` succeeds for
every stored id and returns exactly the transaction at that index. -/
theorem parseXMLData_ids (env : JSEnv) (records : List XMLRecord) :
    (∀ i (h : i < (parseXMLData env records).length),
      ((parseXMLData env records).get ⟨i, h⟩).id = i)
    ∧ (∀ k (hk : k < (parseXMLData env records).length),
        (parseXMLData env records).find? (fun t => t.id == k)
          = some ((parseXMLData env records).get ⟨k, hk⟩)) := by
  have hids : idsFrom (parseXMLData env records) :=
    parseGo_ids records env 0 [] (fun i h => absurd h (by simp))
  refine ⟨hids, fun k hk => ?_⟩
  have := find_ids (parseXMLData env records) 0 (fun i h => by
    rw [hids i h]; omega) k hk
  rwa [show (0 + k) = k from by omega] at this

theorem parseXMLData_ids_witness :
    (parseXMLData ⟨fun _ => none, fun _ => none⟩ [⟨"x", "", [], ""⟩]).find?
        (fun t => t.id == 0)
      = some ((parseXMLData ⟨fun _ => none, fun _ => none⟩
          [⟨"x", "", [], ""⟩]).get ⟨0, by decide⟩) :=
  (parseXMLData_ids ⟨fun _ => none, fun _ => none⟩ [⟨"x", "", [], ""⟩]).2 0 (by decide)

theorem parseGo_forall {env : JSEnv} (P : Transaction → Prop)
    (hnew : ∀ idx nextId r t, parseOne env idx nextId r = some t → P t) :
    ∀ (rs : List XMLRecord) (idx : Nat) (acc : List Transaction),
      (∀ t ∈ acc, P t) → ∀ t ∈ parseGo env idx acc rs, P t := by
  intro rs
  induction rs with
  | nil => intro idx acc hacc; exact hacc
  | cons r rs ih =>
    intro idx acc hacc
    rw [parseGo_cons]
    cases hpo : parseOne env idx acc.length r with
    | some u =>
      refine ih (idx + 1) (acc ++ [u]) ?_
      intro t ht
      rcases List.mem_append.mp ht with h | h
      · exact hacc t h
      · rw [List.mem_singleton.mp h]
        exact hnew idx acc.length r u hpo
    | none => exact ih (idx + 1) acc hacc

/-- C8: every parsed transaction's date is absent (`''`) or an ISO-shaped
string with year in [1200, 1800]; and a record whose date text is the
out-of-range "2400-12-24" (assuming the host parses it to year 2400, as
real engines do, or fails) still yields a transaction — with the date
absent, not an error — as long as its entry text is non-empty. -/
theorem parseXMLData_date_bounds (env : JSEnv)
    (henv : ∀ d, env.dateParse "2400-12-24" = some d → d.year = 2400) :
    (∀ (records : List XMLRecord), ∀ t ∈ parseXMLData env records,
      dateWithinBounds t.date)
    ∧ (∀ entry : String, entry ≠ "" →
        (parseXMLData env [⟨entry, "2400-12-24", [], ""⟩]).map
          (fun t => (t.entry, t.date)) = [(entry, "")]) := by
  constructor
  · intro records
    refine parseGo_forall (fun t => dateWithinBounds t.date) ?_ records 0 [] (by simp)
    intro idx nextId r t hpo
    rw [(parseOne_eq_some hpo).2.1]
    exact validateAndParseDate_bounds env r.whenText
  · intro entry hentry
    have hdate : validateAndParseDate env "2400-12-24" = "" := by
      unfold validateAndParseDate
      rw [if_neg (by decide : ¬("2400-12-24" : String) = "")]
      rw [if_neg (by decide :
        ¬(isISODateShape "2400-12-24" &&
          decide (1200 ≤ yearOfDateString "2400-12-24") &&
          decide (yearOfDateString "2400-12-24" ≤ 1800)) = true)]
      cases hp : env.dateParse "2400-12-24" with
      | none => rfl
      | some d =>
        have hy := henv d hp
        show (if 1200 ≤ d.year ∧ d.year ≤ 1800 then toISODateString d else "") = ""
        rw [if_neg (by omega)]
    show (parseGo env 0 [] [⟨entry, "2400-12-24", [], ""⟩]).map
        (fun t => (t.entry, t.date)) = [(entry, "")]
    rw [parseGo_cons]
    have : parseOne env 0 0 ⟨entry, "2400-12-24", [], ""⟩ = some
        { id := 0
          originalId := "T" ++ toString (0 + 1)
          date := validateAndParseDate env "2400-12-24"
          entry := entry
          amounts := (([], (0 : ℚ)) : List Amount × ℚ).1
          totalFlorinValue := (([], (0 : ℚ)) : List Amount × ℚ).2
          type := transactionTypeOf entry
          people := extractPeopleAndPlaces entry
          rawXML := "" } := by
      unfold parseOne
      rw [if_neg (show ¬(⟨entry, "2400-12-24", [], ""⟩ : XMLRecord).entry = "" from hentry)]
      rfl
    simp only [List.length_nil]
    rw [this]
    show [(entry, validateAndParseDate env "2400-12-24")] = [(entry, "")]
    rw [hdate]

theorem parseXMLData_date_bounds_witness :
    (parseXMLData
        ⟨fun _ => some ⟨2400, ⟨11, by omega⟩, ⟨23, by omega⟩⟩, fun _ => none⟩
        [⟨"Item", "2400-12-24", [], ""⟩]).map (fun t => (t.entry, t.date))
      = [("Item", "")] :=
  (parseXMLData_date_bounds
    ⟨fun _ => some ⟨2400, ⟨11, by omega⟩, ⟨23, by omega⟩⟩, fun _ => none⟩
    (fun d h => by cases h; rfl)).2 "Item" (by decide)

/-! ## Load atomicity (§5 of the spec, C1)

`parseXMLData` starts with `this.transactions = []` (script.js:238) and
then pushes kept transactions one record at a time.  `loadTrace` lists the
successive values of the externally visible `this.transactions` field
during one load: its pre-load value, the freshly assigned empty array, and
the state after each record of the `forEach`. -/

def loadTrace (env : JSEnv) (pre : List Transaction) (records : List XMLRecord) :
    List (List Transaction) :=
  pre :: (List.range (records.length + 1)).map
    (fun k => parseXMLData env (records.take k))

theorem parseGo_append (env : JSEnv) : ∀ (xs ys : List XMLRecord) (idx : Nat)
    (acc : List Transaction),
    parseGo env idx acc (xs ++ ys)
      = parseGo env (idx + xs.length) (parseGo env idx acc xs) ys := by
  intro xs
  induction xs with
  | nil => intro ys idx acc; simp [parseGo]
  | cons r rs ih =>
    intro ys idx acc
    rw [List.cons_append, parseGo_cons, parseGo_cons]
    cases hpo : parseOne env idx acc.length r with
    | some t =>
      dsimp only
      rw [ih ys (idx + 1) (acc ++ [t])]
      rw [show idx + (r :: rs).length = idx + 1 + rs.length from by
        simp only [List.length_cons]; omega]
    | none =>
      dsimp only
      rw [ih ys (idx + 1) acc]
      rw [show idx + (r :: rs).length = idx + 1 + rs.length from by
        simp only [List.length_cons]; omega]

theorem parseGo_isPre (env : JSEnv) : ∀ (rs : List XMLRecord) (idx : Nat)
    (acc : List Transaction), acc <+: parseGo env idx acc rs := by
  intro rs
  induction rs with
  | nil => intro idx acc; exact ⟨[], List.append_nil acc⟩
  | cons r rs ih =>
    intro idx acc
    rw [parseGo_cons]
    cases hpo : parseOne env idx acc.length r with
    | some t =>
      dsimp only
      obtain ⟨u, hu⟩ := ih (idx + 1) (acc ++ [t])
      exact ⟨[t] ++ u, by rw [← hu]; simp⟩
    | none => exact ih (idx + 1) acc

/-- C1 counterexample: with a non-empty pre-load collection and one kept
record, the visible trace is `[pre, [], final]`; the middle state `[]` is
neither the pre-load nor the post-load collection, because line 238
assigns an empty array before any record is parsed and the array is then
populated in place. -/
theorem loadTrace_counterexample :
    ¬ (∀ s ∈ loadTrace ⟨fun _ => none, fun _ => none⟩
          [⟨7, "T9", "", "old", [], 0, "trade", [], ""⟩]
          [⟨"x", "", [], ""⟩],
        s = [⟨7, "T9", "", "old", [], 0, "trade", [], ""⟩]
        ∨ s = parseXMLData ⟨fun _ => none, fun _ => none⟩ [⟨"x", "", [], ""⟩]) :=
  fun h => absurd (h [] (by decide)) (by decide)

/-- C1 (amended): during a load the externally visible transactions array
is the pre-load collection or a prefix of the post-load collection (the
empty array and every partially populated stage are visible states), and
the last visible state is the complete post-load collection: the array is
reset to empty at the start of the load and grown in place, so a
mid-load reader can observe a partial collection, never a mixed one. -/
theorem loadTrace_amended (env : JSEnv) (pre : List Transaction)
    (records : List XMLRecord) :
    (∀ s ∈ loadTrace env pre records,
      s = pre ∨ s <+: parseXMLData env records)
    ∧ (loadTrace env pre records).getLast? = some (parseXMLData env records) := by
  constructor
  · intro s hs
    rcases List.mem_cons.mp hs with h | h
    · exact Or.inl h
    · obtain ⟨k, _, hk⟩ := List.mem_map.mp h
      refine Or.inr ?_
      rw [← hk]
      unfold parseXMLData
      rw [show records = records.take k ++ records.drop k from
        (List.take_append_drop k records).symm]
      rw [parseGo_append]
      rw [List.take_append_drop]
      exact parseGo_isPre env (records.drop k) _ _
  · unfold loadTrace
    rw [List.range_succ, List.map_append]
    simp only [List.map_cons, List.map_nil]
    rw [show (pre :: ((List.range records.length).map
          (fun k => parseXMLData env (records.take k))
        ++ [parseXMLData env (records.take records.length)]))
      = (pre :: (List.range records.length).map
          (fun k => parseXMLData env (records.take k)))
        ++ [parseXMLData env (records.take records.length)] from rfl]
    rw [List.getLast?_concat]
    rw [List.take_length]

theorem loadTrace_amended_witness :
    (([] : List Transaction) = [⟨7, "T9", "", "old", [], 0, "trade", [], ""⟩]
      ∨ ([] : List Transaction) <+:
          parseXMLData ⟨fun _ => none, fun _ => none⟩ [⟨"x", "", [], ""⟩])
    ∧ (loadTrace ⟨fun _ => none, fun _ => none⟩
        [⟨7, "T9", "", "old", [], 0, "trade", [], ""⟩]
        [⟨"x", "", [], ""⟩]).getLast?
      = some (parseXMLData ⟨fun _ => none, fun _ => none⟩ [⟨"x", "", [], ""⟩]) :=
  ⟨(loadTrace_amended ⟨fun _ => none, fun _ => none⟩
      [⟨7, "T9", "", "old", [], 0, "trade", [], ""⟩] [⟨"x", "", [], ""⟩]).1
    [] (by decide),
   (loadTrace_amended ⟨fun _ => none, fun _ => none⟩
      [⟨7, "T9", "", "old", [], 0, "trade", [], ""⟩] [⟨"x", "", [], ""⟩]).2⟩

/-! ## EntityExtractor (modal path): `extractEntitiesFromText`
(script.js:1799–1836)

The two name patterns and the place pattern carry `\b` anchors and
character classes whose non-ASCII members are the literal (mojibake) code
points of the source file: the "upper" class is `A`–`Z` plus U+00C3,
U+0084, U+0096, U+009C, the "lower" class is `a`–`z` plus U+00C3, U+00A4,
U+00B6, U+00BC, U+009F.  JS `\b` tests ASCII word characters only, so
these extra class members are non-word characters.  Each quantifier's
continuation forces maximal munch except the final `[lower]+` before a
`\b`, which backtracks to the longest length whose following position is a
word boundary. -/

def isNameUpper (c : Char) : Bool :=
  isAsciiUpper c || c = 'Ã' || c = '\x84' || c = '\x96' || c = '\x9C'

def isNameLower (c : Char) : Bool :=
  isAsciiLower c || c = 'Ã' || c = '¤' || c = '¶' || c = '¼' || c = '\x9F'

def isWordOpt : Option Char → Bool
  | none => false
  | some c => isWordChar c

/-- JS `\b` between two (possibly absent) adjacent characters. -/
def boundaryBetween (l r : Option Char) : Bool := isWordOpt l != isWordOpt r

/-- Is the position after the first `k` characters of `run` a word
boundary (`after` being the input following `run`)?  Only meaningful for
`1 ≤ k ≤ run.length`. -/
def boundPos (run after : List Char) (k : Nat) : Bool :=
  match (run.take k).getLast? with
  | some lc => boundaryBetween (some lc) ((run.drop k ++ after).head?)
  | none => false

/-- Greedy backtracking of the final `[lower]+\b`: the largest
`1 ≤ k ≤ fuel` at which the boundary holds. -/
def backtrackBound (run after : List Char) : Nat → Option Nat
  | 0 => none
  | k + 1 => if boundPos run after (k + 1) then some (k + 1) else backtrackBound run after k

/-- `[upper][lower]+\b` at the head of the input (the final word of each
pattern): maximal lower run, then backtrack for the boundary. -/
def matchNameWord (l : List Char) : Option (List Char × List Char) :=
  match l with
  | c :: rest =>
      if isNameUpper c then
        let run := rest.takeWhile isNameLower
        let after := rest.drop run.length
        match backtrackBound run after run.length with
        | some k => some (c :: run.take k, run.drop k ++ after)
        | none => none
      else none
  | [] => none

/-- `[upper][lower]+` with no trailing boundary (the first word of the
name-pair pattern; its continuation `\s+` forces the maximal run). -/
def matchFirstWord (l : List Char) : Option (List Char × List Char) :=
  match l with
  | c :: rest =>
      if isNameUpper c then
        let run := rest.takeWhile isNameLower
        if run.isEmpty then none else some (c :: run, rest.drop run.length)
      else none
  | [] => none

/-- The name-pair pattern
`/\b([upper][lower]+)\s+(?:von\s+)?([upper][lower]+)\b/` anchored at the
head of the input (`prev` the preceding character); returns
(match, rest). -/
def matchP1At (prev : Option Char) (l : List Char) :
    Option (List Char × List Char) :=
  if boundaryBetween prev l.head? then
    match matchFirstWord l with
    | some (w1, r1) =>
        let sp := r1.takeWhile isSpaceJS
        if sp.isEmpty then none
        else
          let r2 := r1.drop sp.length
          let vonAttempt : Option (List Char × List Char) :=
            match r2 with
            | 'v' :: 'o' :: 'n' :: r3 =>
                let sp2 := r3.takeWhile isSpaceJS
                if sp2.isEmpty then none
                else some ('v' :: 'o' :: 'n' :: sp2, r3.drop sp2.length)
            | _ => none
          match vonAttempt with
          | some (vonChars, r4) =>
              (match matchNameWord r4 with
               | some (w2, r5) => some (w1 ++ sp ++ vonChars ++ w2, r5)
               | none =>
                   match matchNameWord r2 with
                   | some (w2, r5) => some (w1 ++ sp ++ w2, r5)
                   | none => none)
          | none =>
              match matchNameWord r2 with
              | some (w2, r5) => some (w1 ++ sp ++ w2, r5)
              | none => none
    | none => none
  else none

/-- The `/\bHerr\s+([upper][lower]+)\b/` pattern anchored at the head. -/
def matchP2At (prev : Option Char) (l : List Char) :
    Option (List Char × List Char) :=
  if boundaryBetween prev l.head? then
    match l with
    | 'H' :: 'e' :: 'r' :: 'r' :: r1 =>
        let sp := r1.takeWhile isSpaceJS
        if sp.isEmpty then none
        else
          match matchNameWord (r1.drop sp.length) with
          | some (w, r2) => some ('H' :: 'e' :: 'r' :: 'r' :: (sp ++ w), r2)
          | none => none
    | _ => none
  else none

/-- The alternation `zu|von|aus|in` (first letters are distinct, so at most
one alternative can match). -/
def matchPrepAt (l : List Char) : Option (List Char × List Char) :=
  if charsPrefix "zu".data l then some ("zu".data, l.drop 2)
  else if charsPrefix "von".data l then some ("von".data, l.drop 3)
  else if charsPrefix "aus".data l then some ("aus".data, l.drop 3)
  else if charsPrefix "in".data l then some ("in".data, l.drop 2)
  else none

/-- The place pattern `/\b(?:zu|von|aus|in)\s+([upper][lower]+)\b/`
anchored at the head; returns (full match, captured group 1, rest). -/
def matchP3At (prev : Option Char) (l : List Char) :
    Option (List Char × List Char × List Char) :=
  if boundaryBetween prev l.head? then
    match matchPrepAt l with
    | some (prep, r1) =>
        let sp := r1.takeWhile isSpaceJS
        if sp.isEmpty then none
        else
          match matchNameWord (r1.drop sp.length) with
          | some (w, r2) => some (prep ++ sp ++ w, w, r2)
          | none => none
    | none => none
  else none

structure Entities where
  people : List String
  places : List String
  commodities : List String
deriving DecidableEq, Repr

/-- `extractEntitiesFromText(text)` (script.js:1799–1836): the two name
patterns push their full matches, the place pattern its captured word, and
commodities are substring-matched against a fixed vocabulary. -/
def extractEntitiesFromText (text : String) : Entities :=
  if text = "" then ⟨[], [], []⟩
  else
    let chars := text.data
    let fuel := chars.length + 1
    let people1 := scanRegex
      (fun p l => (matchP1At p l).map (fun mr => (mr.1, mr.1, mr.2))) fuel none chars
    let people2 := scanRegex
      (fun p l => (matchP2At p l).map (fun mr => (mr.1, mr.1, mr.2))) fuel none chars
    let placeList := scanRegex matchP3At fuel none chars
    { people := (people1 ++ people2).map String.mk
      places := placeList.map String.mk
      commodities := (["Korn", "Weizen", "Gerste", "Wein", "Bier", "Holz", "Salz"] :
          List String).filter (fun w => charsIncludes chars w.data) }

/-! ## RelatednessScorer: `loadRelatedTab` (script.js:1687–1796)

The scoring callback of the `filter` at script.js:1694–1752.  Dates are
compared through the host `Date`; the only date strings reachable here are
`''` or ISO-shaped (C8), so the host parse is modelled as strict ISO
parsing (anything else is an Invalid Date, `NaN` comparisons are false).
Scores are the non-negative integers the code adds up. -/

/-- Strict ISO `YYYY-MM-DD` parse with the basic range check the host
applies (Invalid Date = `none`). -/
def parseISODate (s : String) : Option (Int × Nat × Nat) :=
  match s.data with
  | [y1, y2, y3, y4, h1, m1, m2, h2, d1, d2] =>
      if y1.isDigit && y2.isDigit && y3.isDigit && y4.isDigit && h1 = '-' &&
          m1.isDigit && m2.isDigit && h2 = '-' && d1.isDigit && d2.isDigit then
        let m := charsToNat [m1, m2]
        let d := charsToNat [d1, d2]
        if 1 ≤ m ∧ m ≤ 12 ∧ 1 ≤ d ∧ d ≤ 31 then
          some ((charsToNat [y1, y2, y3, y4] : Int), m, d)
        else none
      else none
  | _ => none

/-- Days since the Unix epoch of a civil date (the value underlying
`new Date(iso).getTime() / 86400000`). -/
def epochDays (y : Int) (m d : Nat) : Int :=
  let y2 : Int := y - (if m ≤ 2 then 1 else 0)
  let era : Int := (if 0 ≤ y2 then y2 else y2 - 399) / 400
  let yoe : Int := y2 - era * 400
  let mp : Nat := (m + 9) % 12
  let doy : Int := (153 * (mp : Int) + 2) / 5 + (d : Int) - 1
  let doe : Int := yoe * 365 + yoe / 4 - yoe / 100 + doy
  era * 146097 + doe - 719468

/-- Date proximity (script.js:1699–1706): +2 within 7 days, a further +3
within 1 day; nothing when either date is falsy or unparsable. -/
def dateProximityScore (a b : Transaction) : Nat :=
  if a.date ≠ "" ∧ b.date ≠ "" then
    match parseISODate a.date, parseISODate b.date with
    | some (y1, m1, d1), some (y2, m2, d2) =>
        let daysDiff := (epochDays y1 m1 d1 - epochDays y2 m2 d2).natAbs
        (if daysDiff ≤ 7 then 2 else 0) + (if daysDiff ≤ 1 then 3 else 0)
    | _, _ => 0
  else 0

/-- Value similarity (script.js:1708–1713): +2 when both florin totals are
truthy and their min/max ratio exceeds 0.8. -/
def valueSimilarityScore (a b : Transaction) : Nat :=
  if a.totalFlorinValue ≠ 0 ∧ b.totalFlorinValue ≠ 0 then
    if (0.8 : ℚ) <
        min a.totalFlorinValue b.totalFlorinValue /
          max a.totalFlorinValue b.totalFlorinValue
    then 2 else 0
  else 0

/-- Shared currency (script.js:1715–1721): +1 when the amount lists share
a code. -/
def sharedCurrencyScore (a b : Transaction) : Nat :=
  if (a.amounts.map (fun x => x.currency)).any
      (fun c => (b.amounts.map (fun x => x.currency)).contains c)
  then 1 else 0

/-- Entity bonuses (script.js:1723–1749), gated on the candidate's entry
being truthy and the target having at least one extracted person: +3 for a
fuzzy person match (case-insensitive substring either way), +2 for an
exact case-insensitive place match, +1 for an exact commodity match. -/
def entityScore (targetEntities : Entities) (cand : Transaction) : Nat :=
  if cand.entry ≠ "" ∧ targetEntities.people ≠ [] then
    let relatedEntities := extractEntitiesFromText cand.entry
    (if targetEntities.people.any (fun p => relatedEntities.people.any (fun rp =>
        charsIncludes (lowerChars rp.data) (lowerChars p.data) ||
        charsIncludes (lowerChars p.data) (lowerChars rp.data))) then 3 else 0)
    + (if targetEntities.places.any (fun p => relatedEntities.places.any (fun rp =>
        lowerChars rp.data == lowerChars p.data)) then 2 else 0)
    + (if targetEntities.commodities.any
        (fun c => relatedEntities.commodities.contains c) then 1 else 0)
  else 0

/-- The total additive score of one candidate against the target
(the `score` accumulated by the callback at script.js:1697–1749). -/
def relatedScore (target cand : Transaction) : Nat :=
  dateProximityScore target cand + valueSimilarityScore target cand +
    sharedCurrencyScore target cand + entityScore (extractEntitiesFromText target.entry) cand

/-- `loadRelatedTab`'s related-transactions computation
(script.js:1694–1755).  `Array.prototype.filter` keeps the ORIGINAL
elements whose callback result is truthy (`false` for the target itself,
`null` for score 0, a `{transaction, score}` object otherwise), so
`related` is a list of plain transactions; `.filter(r => r !== null)`
keeps everything; the `.sort((a,b) => b.score - a.score)` comparator reads
the absent `score` property, yielding `NaN`, which SortCompare maps to
`+0`, so the (stable) sort leaves the order unchanged; `.slice(0, 5)`
truncates.  The reference comparison `t === transaction` is modelled as
structural equality (the target is an element of the pool). -/
def loadRelatedTab (target : Transaction) (pool : List Transaction) :
    List Transaction :=
  (pool.filter (fun t => !(t == target) && decide (0 < relatedScore target t))).take 5

/-- C6: the related-transactions result never contains the target itself
and never contains a candidate whose total additive score is 0 (the
callback returns `false` for the target and `null` for score 0, both
falsy, so `filter` drops them before the truncation). -/
theorem loadRelatedTab_exclusion (target : Transaction) (pool : List Transaction) :
    ∀ t ∈ loadRelatedTab target pool, t ≠ target ∧ 0 < relatedScore target t := by
  intro t ht
  unfold loadRelatedTab at ht
  have hmem := List.take_subset 5 _ ht
  obtain ⟨-, hp⟩ := List.mem_filter.mp hmem
  rcases Bool.and_eq_true_iff.mp hp with ⟨h1, h2⟩
  constructor
  · intro hcon
    subst hcon
    simp at h1
  · simpa using h2

theorem loadRelatedTab_exclusion_witness :
    ((⟨1, "T2", "", "y", [⟨2, "f"⟩], 0, "trade", [], ""⟩ : Transaction)
        ≠ ⟨0, "T1", "", "x", [⟨1, "f"⟩], 0, "trade", [], ""⟩)
    ∧ 0 < relatedScore ⟨0, "T1", "", "x", [⟨1, "f"⟩], 0, "trade", [], ""⟩
        ⟨1, "T2", "", "y", [⟨2, "f"⟩], 0, "trade", [], ""⟩ :=
  loadRelatedTab_exclusion
    ⟨0, "T1", "", "x", [⟨1, "f"⟩], 0, "trade", [], ""⟩
    [⟨0, "T1", "", "x", [⟨1, "f"⟩], 0, "trade", [], ""⟩,
     ⟨1, "T2", "", "y", [⟨2, "f"⟩], 0, "trade", [], ""⟩]
    ⟨1, "T2", "", "y", [⟨2, "f"⟩], 0, "trade", [], ""⟩ (by decide)

/-- C5 (code evaluated at the failing input): with a target whose entry
names "Martin Oder" and two positive-score candidates in the pool — the
first scoring 1 (shared currency only), the second scoring 4 (shared
currency + shared person) — the computation returns the plain transactions
in their original pool order, NOT `{transaction, score}` pairs sorted
descending by score: the higher-scoring candidate stays last.  (Each
returned element also lacks any score, so the modal's
`item.transaction`/`item.score` reads are undefined downstream.) -/
theorem loadRelatedTab_code_bug :
    loadRelatedTab ⟨0, "T1", "", "Martin Oder", [⟨1, "f"⟩], 0, "trade", [], ""⟩
        [⟨0, "T1", "", "Martin Oder", [⟨1, "f"⟩], 0, "trade", [], ""⟩,
         ⟨1, "T2", "", "zzz", [⟨3, "f"⟩], 0, "trade", [], ""⟩,
         ⟨2, "T3", "", "Martin Oder zahlt", [⟨4, "f"⟩], 0, "trade", [], ""⟩]
      = [⟨1, "T2", "", "zzz", [⟨3, "f"⟩], 0, "trade", [], ""⟩,
         ⟨2, "T3", "", "Martin Oder zahlt", [⟨4, "f"⟩], 0, "trade", [], ""⟩]
    ∧ relatedScore ⟨0, "T1", "", "Martin Oder", [⟨1, "f"⟩], 0, "trade", [], ""⟩
        ⟨1, "T2", "", "zzz", [⟨3, "f"⟩], 0, "trade", [], ""⟩ = 1
    ∧ relatedScore ⟨0, "T1", "", "Martin Oder", [⟨1, "f"⟩], 0, "trade", [], ""⟩
        ⟨2, "T3", "", "Martin Oder zahlt", [⟨4, "f"⟩], 0, "trade", [], ""⟩ = 4 := by
  decide
